import Mathlib

/-!
Shallow embedding of the Gitee Perceval backend
(`perceval/backends/gitee/gitee.py`) and proofs about its harvesting
behaviour.

Modelling conventions:
* Timestamps (`updated_at`, `from_date`, `to_date`) are `Int` values,
  standing for the UTC instants obtained by `str_to_datetime`; the
  Python comparisons on datetimes become integer comparisons.
* Network traffic is modelled by oracles: a record of functions that
  give, for each endpoint, the (already JSON-decoded) pages the server
  would return.  A page of a paginated sub-resource is an
  `Except Err payload`: `.error e` means that the lazy page fetch for
  that page raises `e` at the moment the generator is advanced.
* The mutable client state (the `_users` / `_users_orgs` caches, the
  log of issued requests and the log of recorded warnings) is threaded
  explicitly; every stateful operation returns its result together
  with the updated `ClientState`.  Python exceptions become
  `Except Err` results (the updated state is still returned, since a
  Python exception does not roll back cache mutations).
* Dictionaries from the upstream JSON are modelled by structures whose
  optional fields represent missing-or-null (falsy) entries.
-/

/-- Python exceptions that the embedded code can raise:
`http code` is a `requests.exceptions.HTTPError` with the given status
code, `keyError` a `KeyError`, `typeError` / `valueError` / `indexError`
the corresponding built-in errors raised by `%`-formatting, `int()` and
indexing.  `truncated` is a model-level marker used by the pagination
model when the supplied response list runs out; theorems always supply
enough responses, so it never occurs under their hypotheses. -/
inductive Err where
  | http (code : Nat)
  | keyError (key : String)
  | typeError (msg : String)
  | valueError (msg : String)
  | indexError (msg : String)
  | truncated
deriving DecidableEq, Repr

/-- The REST endpoints the client can hit.  For paginated sub-resources
one entry stands for the request sequence of that sub-fetch. -/
inductive Endpoint where
  | issuesEP
  | pullsEP
  | repoEP
  | repoReleasesEP
  | issueCommentsEP (n : Nat)
  | pullCommitsEP (n : Nat)
  | pullReviewCommentsEP (n : Nat)
  | pullActionLogsEP (n : Nat)
  | userEP (login : String)
  | userOrgsEP (login : String)
deriving DecidableEq, Repr

/-- Is this a request to a `users/*` endpoint (user record or user
organizations)? -/
def isUserCall : Endpoint → Bool
  | .userEP _ => true
  | .userOrgsEP _ => true
  | _ => false

/-- A resolved user as built by `Gitee.__get_user`: the raw payload of
`users/{login}` with the decoded `users/{login}/orgs` list attached
under `organizations`. -/
structure UserRec where
  payload : String
  organizations : List String
deriving DecidableEq, Repr

/-- An issue or review comment from the API.  `user` is the login of
the `user` object, `none` standing for a missing or null (falsy)
`user` entry. -/
structure Comment where
  id : Nat
  user : Option String
  url : String
deriving DecidableEq, Repr

/-- One entry of a pull request operate log (`pulls/{n}/operate_logs`).
Payloads are assumed well formed: the `user` object with its `login`
is always present. -/
structure ActionLog where
  action_type : String
  user : String
deriving DecidableEq, Repr

/-- A raw issue from the primary `issues` list.  `user` / `assignee`
are logins (`none` = falsy), `collaborators` a list of logins
(`[]` = falsy) and `comments` the comment count (`0` = falsy), as in
the Gitee payload. -/
structure Issue where
  id : Nat
  number : Nat
  updated_at : Int
  user : Option String
  assignee : Option String
  collaborators : List String
  comments : Nat
deriving DecidableEq, Repr

/-- A raw pull request from the primary `pulls` list. -/
structure Pull where
  id : Nat
  number : Nat
  updated_at : Int
  user : Option String
  assignees : List String
  testers : List String
deriving DecidableEq, Repr

/-- An item as seen by `Gitee.metadata_category`: only the set of keys
present in the JSON object matters there. -/
structure RawItem where
  keys : List String
deriving DecidableEq, Repr

def CATEGORY_ISSUE : String := "issue"
def CATEGORY_PULL_REQUEST : String := "pull_request"
def CATEGORY_REPO : String := "repository"

/-- `Gitee.metadata_category`: classify an item by its shape. -/
def metadata_category (item : RawItem) : String :=
  if "base" ∈ item.keys then CATEGORY_PULL_REQUEST
  else if "forks_count" ∈ item.keys then CATEGORY_REPO
  else CATEGORY_ISSUE

/-- The mutable state of one `GiteeClient` session: the two memo
caches, the ordered log of issued requests and the log of recorded
warnings. -/
structure ClientState where
  usersCache : List (String × String)
  userOrgsCache : List (String × List String)
  calls : List Endpoint
  warnings : List String
deriving DecidableEq, Repr

def emptyClientState : ClientState :=
  { usersCache := [], userOrgsCache := [], calls := [], warnings := [] }

/-- Append one request to the call log. -/
def logCall (s : ClientState) (e : Endpoint) : ClientState :=
  { s with calls := s.calls ++ [e] }

/-- Append one warning to the warning log. -/
def logWarning (s : ClientState) (w : String) : ClientState :=
  { s with warnings := s.warnings ++ [w] }

/-- Upstream responses for the non-user endpoints.  Sub-resource pages
are `Except Err` to model a page fetch that raises when the lazy
generator is advanced. -/
structure NetOracles where
  issuePages : List (List Issue)
  pullPages : List (List Pull)
  issueCommentPages : Nat → List (Except Err (List Comment))
  reviewCommentPages : Nat → List (Except Err (List Comment))
  commitPages : Nat → List (Except Err (List String))
  actionLogPages : Nat → List (List ActionLog)
  repoPayload : String
  repoReleases : List String

/-- Upstream responses for the `users/*` endpoints. -/
structure UserOracles where
  userPayload : String → Except Err String
  userOrgs : String → Except Err (List String)

/-- The complete upstream behaviour one harvest run observes. -/
structure Oracles where
  net : NetOracles
  users : UserOracles

/-- `GiteeClient.user`: return the cached raw payload for `login`, or
fetch it, cache it and return it. -/
def clientUser (os : Oracles) (login : String) (s : ClientState) :
    Except Err String × ClientState :=
  match s.usersCache.lookup login with
  | some u => (.ok u, s)
  | none =>
    let s1 := logCall s (.userEP login)
    match os.users.userPayload login with
    | .ok u => (.ok u, { s1 with usersCache := s1.usersCache ++ [(login, u)] })
    | .error e => (.error e, s1)

/-- `GiteeClient.user_orgs`: cached organization lookup; an HTTP 404
from the organizations endpoint is converted into an empty list, which
is cached; any other error propagates. -/
def clientUserOrgs (os : Oracles) (login : String) (s : ClientState) :
    Except Err (List String) × ClientState :=
  match s.userOrgsCache.lookup login with
  | some o => (.ok o, s)
  | none =>
    let s1 := logCall s (.userOrgsEP login)
    match os.users.userOrgs login with
    | .ok o => (.ok o, { s1 with userOrgsCache := s1.userOrgsCache ++ [(login, o)] })
    | .error e =>
      if e = .http 404 then
        (.ok [], { s1 with userOrgsCache := s1.userOrgsCache ++ [(login, [])] })
      else (.error e, s1)

/-- `Gitee.__get_user`: `None` without any request when the login is
falsy or classification filtering (`exclude_user_data`) is active;
otherwise fetch user payload and organizations (both memoized by the
client) and build the composite record. -/
def getUser (exclude : Bool) (os : Oracles) (login : String) (s : ClientState) :
    Except Err (Option UserRec) × ClientState :=
  if login = "" ∨ exclude = true then (.ok none, s)
  else
    match clientUser os login s with
    | (.error e, s1) => (.error e, s1)
    | (.ok payload, s1) =>
      match clientUserOrgs os login s1 with
      | (.error e, s2) => (.error e, s2)
      | (.ok orgs, s2) => (.ok (some ⟨payload, orgs⟩), s2)

/-- `Gitee.__get_users`: resolve a list of logins one by one. -/
def getUsers (exclude : Bool) (os : Oracles) (logins : List String) (s : ClientState) :
    Except Err (List (Option UserRec)) × ClientState :=
  match logins with
  | [] => (.ok [], s)
  | l :: rest =>
    match getUser exclude os l s with
    | (.error e, s1) => (.error e, s1)
    | (.ok u, s1) =>
      match getUsers exclude os rest s1 with
      | (.error e, s2) => (.error e, s2)
      | (.ok us, s2) => (.ok (u :: us), s2)

/-- `Gitee.__get_issue_assignee`: resolve the assignee login. -/
def getIssueAssignee (exclude : Bool) (os : Oracles) (login : String) (s : ClientState) :
    Except Err (Option UserRec) × ClientState :=
  getUser exclude os login s

/-- An issue comment or review comment after enrichment. -/
structure EnrichedComment where
  comment : Comment
  user_data : Option UserRec
deriving DecidableEq, Repr

/-- Body of the loop of `Gitee.__get_issue_comments`: enrich each
comment of one decoded page.  The Python line
`comment['user_data'] = self.__get_user(comment['user']['login'])`
evaluates `comment['user']['login']` first, so a missing or null
`user` raises (`KeyError` / `TypeError`) before any resolution. -/
def commentsEnrich (exclude : Bool) (os : Oracles) (cs : List Comment)
    (acc : List EnrichedComment) (s : ClientState) :
    Except Err (List EnrichedComment) × ClientState :=
  match cs with
  | [] => (.ok acc, s)
  | c :: rest =>
    match c.user with
    | none => (.error (.keyError "user"), s)
    | some login =>
      match getUser exclude os login s with
      | (.error e, s1) => (.error e, s1)
      | (.ok ud, s1) => commentsEnrich exclude os rest (acc ++ [⟨c, ud⟩]) s1

/-- Page loop of `Gitee.__get_issue_comments`: no error handling, any
raise from a page fetch or from enrichment propagates. -/
def issueCommentsLoop (exclude : Bool) (os : Oracles)
    (pages : List (Except Err (List Comment)))
    (acc : List EnrichedComment) (s : ClientState) :
    Except Err (List EnrichedComment) × ClientState :=
  match pages with
  | [] => (.ok acc, s)
  | .error e :: _ => (.error e, s)
  | .ok cs :: rest =>
    match commentsEnrich exclude os cs acc s with
    | (.error e, s1) => (.error e, s1)
    | (.ok acc2, s1) => issueCommentsLoop exclude os rest acc2 s1

/-- `Gitee.__get_issue_comments`. -/
def getIssueComments (exclude : Bool) (os : Oracles) (n : Nat) (s : ClientState) :
    Except Err (List EnrichedComment) × ClientState :=
  issueCommentsLoop exclude os (os.net.issueCommentPages n) []
    (logCall s (.issueCommentsEP n))

/-- `Gitee.__get_issue_collaborators`: resolve each collaborator
login. -/
def getIssueCollaborators (exclude : Bool) (os : Oracles) (logins : List String)
    (s : ClientState) : Except Err (List (Option UserRec)) × ClientState :=
  getUsers exclude os logins s

/-- The value of a personal-data field of an enriched item.
`emptyDict` / `emptyList` are the `{}` / `[]` placeholders put in by
`__init_extra_issue_fields` / `__init_extra_pull_fields`, `null` is
the Python `None` returned by `__get_user`, `usr` a resolved record. -/
inductive UserData where
  | emptyDict
  | emptyList
  | null
  | usr (u : UserRec)
deriving DecidableEq, Repr

/-- Convert a `__get_user` result into the stored field value. -/
def userDataOfOpt : Option UserRec → UserData
  | none => .null
  | some u => .usr u

/-- Is a personal-data field empty or absent (placeholder or null)? -/
def UserData.isAbsent : UserData → Bool
  | .usr _ => false
  | _ => true

/-- The fields added to an issue by `__init_extra_issue_fields` and
the enrichment loop of `__fetch_issues`.  `collaborators_data` has no
initial placeholder, hence the `Option`. -/
structure IssueExtras where
  user_data : UserData
  assignee_data : UserData
  assignees_data : List (Option UserRec)
  collaborators_data : Option (List (Option UserRec))
  comments_data : List EnrichedComment
deriving DecidableEq, Repr

/-- An issue together with its enrichment fields; the raw record is
kept unchanged (the Python code only adds keys to the dict). -/
structure EnrichedIssue where
  issue : Issue
  extras : IssueExtras
deriving DecidableEq, Repr

/-- The `user` field step of the issue enrichment loop: skipped when
falsy, otherwise `user_data := __get_user(login)`. -/
def issueUserStep (exclude : Bool) (os : Oracles) (i : Issue) (s : ClientState) :
    Except Err UserData × ClientState :=
  match i.user with
  | none => (.ok .emptyDict, s)
  | some login =>
    match getUser exclude os login s with
    | (.error e, s1) => (.error e, s1)
    | (.ok ud, s1) => (.ok (userDataOfOpt ud), s1)

/-- The `assignee` field step of the issue enrichment loop. -/
def issueAssigneeStep (exclude : Bool) (os : Oracles) (i : Issue) (s : ClientState) :
    Except Err UserData × ClientState :=
  match i.assignee with
  | none => (.ok .emptyDict, s)
  | some login =>
    match getIssueAssignee exclude os login s with
    | (.error e, s1) => (.error e, s1)
    | (.ok ud, s1) => (.ok (userDataOfOpt ud), s1)

/-- The `collaborators` field step of the issue enrichment loop. -/
def issueCollaboratorsStep (exclude : Bool) (os : Oracles) (i : Issue) (s : ClientState) :
    Except Err (Option (List (Option UserRec))) × ClientState :=
  if i.collaborators = [] then (.ok none, s)
  else
    match getIssueCollaborators exclude os i.collaborators s with
    | (.error e, s1) => (.error e, s1)
    | (.ok us, s1) => (.ok (some us), s1)

/-- The `comments` field step of the issue enrichment loop. -/
def issueCommentsStep (exclude : Bool) (os : Oracles) (i : Issue) (s : ClientState) :
    Except Err (List EnrichedComment) × ClientState :=
  if i.comments = 0 then (.ok [], s)
  else getIssueComments exclude os i.number s

/-- The enrichment fields of one issue, computed in the literal order
of `TARGET_ISSUE_FIELDS = [user, assignee, collaborators, comments]`. -/
def issueExtras (exclude : Bool) (os : Oracles) (i : Issue) (s : ClientState) :
    Except Err IssueExtras × ClientState :=
  match issueUserStep exclude os i s with
  | (.error e, s1) => (.error e, s1)
  | (.ok ud, s1) =>
    match issueAssigneeStep exclude os i s1 with
    | (.error e, s2) => (.error e, s2)
    | (.ok ad, s2) =>
      match issueCollaboratorsStep exclude os i s2 with
      | (.error e, s3) => (.error e, s3)
      | (.ok cd, s3) =>
        match issueCommentsStep exclude os i s3 with
        | (.error e, s4) => (.error e, s4)
        | (.ok cmts, s4) =>
          (.ok { user_data := ud, assignee_data := ad, assignees_data := [],
                 collaborators_data := cd, comments_data := cmts }, s4)

/-- Enrich one issue: the raw record is preserved, the extras are
attached. -/
def enrichIssue (exclude : Bool) (os : Oracles) (i : Issue) (s : ClientState) :
    Except Err EnrichedIssue × ClientState :=
  match issueExtras exclude os i s with
  | (.error e, s1) => (.error e, s1)
  | (.ok ex, s1) => (.ok ⟨i, ex⟩, s1)

/-- How processing one decoded page of the primary list ended. -/
inductive Outcome where
  | ok
  | stop
  | err (e : Err)
deriving DecidableEq, Repr

/-- The observable result of one harvest run: the items yielded before
the generator finished, the exception that ended it (if any), and the
final client state. -/
structure RunResult (α : Type) where
  emitted : List α
  error : Option Err
  finalState : ClientState
deriving DecidableEq, Repr

/-- Inner loop of `Gitee.__fetch_issues` over one decoded page:
`return` (ending the whole generator) as soon as a record's update
time exceeds `to_date`, otherwise enrich and yield. -/
def issuesPageLoop (exclude : Bool) (os : Oracles) (toDate : Int) :
    List Issue → List EnrichedIssue → ClientState →
    List EnrichedIssue × ClientState × Outcome
  | [], acc, s => (acc, s, .ok)
  | i :: rest, acc, s =>
    if toDate < i.updated_at then (acc, s, .stop)
    else
      match enrichIssue exclude os i s with
      | (.error e, s1) => (acc, s1, .err e)
      | (.ok e, s1) => issuesPageLoop exclude os toDate rest (acc ++ [e]) s1

/-- Outer loop of `Gitee.__fetch_issues` over the pages of the primary
`issues` list. -/
def issuesLoop (exclude : Bool) (os : Oracles) (toDate : Int) :
    List (List Issue) → List EnrichedIssue → ClientState → RunResult EnrichedIssue
  | [], acc, s => ⟨acc, none, s⟩
  | p :: ps, acc, s =>
    match issuesPageLoop exclude os toDate p acc s with
    | (acc2, s2, .ok) => issuesLoop exclude os toDate ps acc2 s2
    | (acc2, s2, .stop) => ⟨acc2, none, s2⟩
    | (acc2, s2, .err e) => ⟨acc2, some e, s2⟩

/-- `Gitee.__fetch_issues`: run the issue harvest against the primary
list pages supplied by the oracle (requested with ascending update
sort and the `since` filter applied server-side). -/
def runIssues (exclude : Bool) (os : Oracles) (toDate : Int) (s : ClientState) :
    RunResult EnrichedIssue :=
  issuesLoop exclude os toDate os.net.issuePages [] (logCall s .issuesEP)

/-- First entry of one action-log page whose `action_type` is the
merge marker (the inner loop of `__get_pull_merged_by` breaks at the
first hit). -/
def firstMerged (logs : List ActionLog) : Option ActionLog :=
  logs.find? (fun l => l.action_type == "merged_pr")

/-- Page loop of `Gitee.__get_pull_merged_by`: a match within a page
overwrites `result` and later pages keep being scanned. -/
def mergedByLoop : List (List ActionLog) → Option String → Option String
  | [], r => r
  | page :: rest, r =>
    match firstMerged page with
    | some l => mergedByLoop rest (some l.user)
    | none => mergedByLoop rest r

/-- `Gitee.__get_pull_merged_by`. -/
def getPullMergedBy (os : Oracles) (n : Nat) (s : ClientState) :
    Option String × ClientState :=
  (mergedByLoop (os.net.actionLogPages n) none, logCall s (.pullActionLogsEP n))

/-- Modelled from the spec (section 4.3) for comparison with the code:
the action-log scan keeps, over the whole page sequence, the
first-in-page merge entry of the **last** page containing one. -/
def mergedBySpec (pages : List (List ActionLog)) : Option String :=
  ((pages.filterMap firstMerged).getLast?).map (fun l => l.user)

/-- Page loop of `Gitee.__get_pull_commits`: hashes accumulate across
pages; the surrounding `try` turns an HTTP 404 raised while advancing
the page generator into a normal return of the hashes gathered so far,
and re-raises every other error. -/
def commitPagesLoop : List (Except Err (List String)) → List String →
    Except Err (List String)
  | [], acc => .ok acc
  | .error e :: _, acc => if e = .http 404 then .ok acc else .error e
  | .ok shas :: rest, acc => commitPagesLoop rest (acc ++ shas)

/-- `Gitee.__get_pull_commits`. -/
def getPullCommits (os : Oracles) (n : Nat) (s : ClientState) :
    Except Err (List String) × ClientState :=
  (commitPagesLoop (os.net.commitPages n) [], logCall s (.pullCommitsEP n))

/-- Per-comment body of the loop of `Gitee.__get_pull_review_comments`:
a falsy `user` entry logs a warning and stores a null `user_data`
instead of raising; errors from user resolution abort the page with
the comments accumulated so far still available to the handler. -/
def reviewCommentsEnrich (exclude : Bool) (os : Oracles) :
    List Comment → List EnrichedComment → ClientState →
    Except Err Unit × List EnrichedComment × ClientState
  | [], acc, s => (.ok (), acc, s)
  | c :: rest, acc, s =>
    match c.user with
    | none =>
      let s1 := logWarning s ("Missing user info for " ++ c.url)
      reviewCommentsEnrich exclude os rest (acc ++ [⟨c, none⟩]) s1
    | some login =>
      match getUser exclude os login s with
      | (.error e, s1) => (.error e, acc, s1)
      | (.ok ud, s1) => reviewCommentsEnrich exclude os rest (acc ++ [⟨c, ud⟩]) s1

/-- Page loop of `Gitee.__get_pull_review_comments`: the surrounding
`try` converts an HTTP 404 (raised by a page fetch or inside the
enrichment of a comment) into a normal return of the comments
accumulated so far; every other error is re-raised. -/
def reviewPagesLoop (exclude : Bool) (os : Oracles) :
    List (Except Err (List Comment)) → List EnrichedComment → ClientState →
    Except Err (List EnrichedComment) × ClientState
  | [], acc, s => (.ok acc, s)
  | .error e :: _, acc, s =>
    if e = .http 404 then (.ok acc, s) else (.error e, s)
  | .ok cs :: rest, acc, s =>
    match reviewCommentsEnrich exclude os cs acc s with
    | (.ok _, acc2, s2) => reviewPagesLoop exclude os rest acc2 s2
    | (.error e, acc2, s2) =>
      if e = .http 404 then (.ok acc2, s2) else (.error e, s2)

/-- `Gitee.__get_pull_review_comments`. -/
def getPullReviewComments (exclude : Bool) (os : Oracles) (n : Nat) (s : ClientState) :
    Except Err (List EnrichedComment) × ClientState :=
  reviewPagesLoop exclude os (os.net.reviewCommentPages n) []
    (logCall s (.pullReviewCommentsEP n))

/-- The fields added to a pull request by `__init_extra_pull_fields`
and the enrichment loop of `__fetch_pull_requests`.
`review_comments_data` starts as the `{}` placeholder (`none` here),
`merged_by_data` starts as the `[]` placeholder, `reviews_data` is
initialized to `[]` and never populated, and `merged_by` is only
written by the `number` branch (with the scan result, possibly
`None`). -/
structure PullExtras where
  user_data : UserData
  assignees_data : Option (List (Option UserRec))
  testers_data : Option (List (Option UserRec))
  review_comments_data : Option (List EnrichedComment)
  reviews_data : List EnrichedComment
  commits_data : List String
  merged_by : Option String
  merged_by_data : UserData
deriving DecidableEq, Repr

/-- A pull request together with its enrichment fields. -/
structure EnrichedPull where
  pull : Pull
  extras : PullExtras
deriving DecidableEq, Repr

/-- The `user` field step of the pull enrichment loop. -/
def pullUserStep (exclude : Bool) (os : Oracles) (p : Pull) (s : ClientState) :
    Except Err UserData × ClientState :=
  match p.user with
  | none => (.ok .emptyDict, s)
  | some login =>
    match getUser exclude os login s with
    | (.error e, s1) => (.error e, s1)
    | (.ok ud, s1) => (.ok (userDataOfOpt ud), s1)

/-- The `assignees` / `testers` field step of the pull enrichment
loop: skipped on an empty list (the previous field value, given as
`prev`, is then kept). -/
def pullUserListStep (exclude : Bool) (os : Oracles) (logins : List String)
    (prev : Option (List (Option UserRec))) (s : ClientState) :
    Except Err (Option (List (Option UserRec))) × ClientState :=
  if logins = [] then (.ok prev, s)
  else
    match getUsers exclude os logins s with
    | (.error e, s1) => (.error e, s1)
    | (.ok us, s1) => (.ok (some us), s1)

/-- The `number` branch of the pull enrichment loop: fetch review
comments, commit hashes and the merged-by login; a truthy merged-by
login is then resolved into `merged_by_data`.  Returns
(review comments, commits, merged by, merged-by data). -/
def pullNumberStep (exclude : Bool) (os : Oracles) (n : Nat) (s : ClientState) :
    Except Err (List EnrichedComment × List String × Option String × UserData) ×
      ClientState :=
  match getPullReviewComments exclude os n s with
  | (.error e, s1) => (.error e, s1)
  | (.ok rc, s1) =>
    match getPullCommits os n s1 with
    | (.error e, s2) => (.error e, s2)
    | (.ok commits, s2) =>
      match getPullMergedBy os n s2 with
      | (mb, s3) =>
        match mb with
        | some login =>
          if login = "" then (.ok (rc, commits, mb, .emptyList), s3)
          else
            match getUser exclude os login s3 with
            | (.error e, s4) => (.error e, s4)
            | (.ok ud, s4) => (.ok (rc, commits, mb, userDataOfOpt ud), s4)
        | none => (.ok (rc, commits, mb, .emptyList), s3)

/-- The enrichment fields of one pull request, computed in the literal
order of `TARGET_PULL_FIELDS = [user, assignees, number, assignees,
testers]` (the `assignees` entry appears twice in the source list, so
its step runs twice; the dead `merged_by` branch of the source loop is
never reached because that name is not in the list). -/
def pullExtras (exclude : Bool) (os : Oracles) (p : Pull) (s : ClientState) :
    Except Err PullExtras × ClientState :=
  match pullUserStep exclude os p s with
  | (.error e, s1) => (.error e, s1)
  | (.ok ud, s1) =>
    match pullUserListStep exclude os p.assignees none s1 with
    | (.error e, s2) => (.error e, s2)
    | (.ok asg1, s2) =>
      match (if p.number = 0 then
               (.ok (none, [], none, UserData.emptyList, false), s2)
             else
               match pullNumberStep exclude os p.number s2 with
               | (.error e, s3) => (.error e, s3)
               | (.ok (rc, commits, mb, mbd), s3) =>
                 (.ok (some rc, commits, mb, mbd, true), s3) :
               Except Err (Option (List EnrichedComment) × List String ×
                 Option String × UserData × Bool) × ClientState) with
      | (.error e, s3) => (.error e, s3)
      | (.ok (rc, commits, mb, mbd, _), s3) =>
        match pullUserListStep exclude os p.assignees asg1 s3 with
        | (.error e, s4) => (.error e, s4)
        | (.ok asg2, s4) =>
          match pullUserListStep exclude os p.testers none s4 with
          | (.error e, s5) => (.error e, s5)
          | (.ok tst, s5) =>
            (.ok { user_data := ud, assignees_data := asg2, testers_data := tst,
                   review_comments_data := rc, reviews_data := [],
                   commits_data := commits, merged_by := mb,
                   merged_by_data := mbd }, s5)

/-- Enrich one pull request. -/
def enrichPull (exclude : Bool) (os : Oracles) (p : Pull) (s : ClientState) :
    Except Err EnrichedPull × ClientState :=
  match pullExtras exclude os p s with
  | (.error e, s1) => (.error e, s1)
  | (.ok ex, s1) => (.ok ⟨p, ex⟩, s1)

/-- Inner loop of `Gitee.__fetch_pull_requests` over one decoded page:
`return` as soon as a record's update time is strictly below
`from_date` or strictly above `to_date` (both bounds, unlike the
issue driver). -/
def pullsPageLoop (exclude : Bool) (os : Oracles) (fromDate toDate : Int) :
    List Pull → List EnrichedPull → ClientState →
    List EnrichedPull × ClientState × Outcome
  | [], acc, s => (acc, s, .ok)
  | p :: rest, acc, s =>
    if p.updated_at < fromDate ∨ toDate < p.updated_at then (acc, s, .stop)
    else
      match enrichPull exclude os p s with
      | (.error e, s1) => (acc, s1, .err e)
      | (.ok e, s1) => pullsPageLoop exclude os fromDate toDate rest (acc ++ [e]) s1

/-- Outer loop of `Gitee.__fetch_pull_requests`. -/
def pullsLoop (exclude : Bool) (os : Oracles) (fromDate toDate : Int) :
    List (List Pull) → List EnrichedPull → ClientState → RunResult EnrichedPull
  | [], acc, s => ⟨acc, none, s⟩
  | p :: ps, acc, s =>
    match pullsPageLoop exclude os fromDate toDate p acc s with
    | (acc2, s2, .ok) => pullsLoop exclude os fromDate toDate ps acc2 s2
    | (acc2, s2, .stop) => ⟨acc2, none, s2⟩
    | (acc2, s2, .err e) => ⟨acc2, some e, s2⟩

/-- `Gitee.__fetch_pull_requests`: run the pull-request harvest. -/
def runPulls (exclude : Bool) (os : Oracles) (fromDate toDate : Int)
    (s : ClientState) : RunResult EnrichedPull :=
  pullsLoop exclude os fromDate toDate os.net.pullPages [] (logCall s .pullsEP)

/-- A repository snapshot item as produced by `__fetch_repo_info`. -/
structure RepoSnapshot where
  payload : String
  releases : List String
  fetched_on : Int
deriving DecidableEq, Repr

/-- `Gitee.__fetch_repo_info`: fetch the repository metadata and its
releases (two requests), stamp the current time and yield one item.
`now` stands for `datetime_utcnow().timestamp()`. -/
def fetchRepoInfo (os : Oracles) (now : Int) (s : ClientState) :
    RepoSnapshot × ClientState :=
  ({ payload := os.net.repoPayload, releases := os.net.repoReleases,
     fetched_on := now },
   logCall (logCall s .repoEP) .repoReleasesEP)

/-- The three category drivers of `Gitee.fetch_items`. -/
inductive Driver where
  | issues
  | pulls
  | repoInfo
deriving DecidableEq, Repr

/-- The dispatch of `Gitee.fetch_items`: `issue` and `pull_request` go
to their drivers and every other category value falls into the `else`
branch, i.e. the repository driver. -/
def fetchItemsDispatch (category : String) : Driver :=
  if category = CATEGORY_ISSUE then .issues
  else if category = CATEGORY_PULL_REQUEST then .pulls
  else .repoInfo

/-- One HTTP response as seen by `GiteeClient.fetch_items`: its body
text, whether its `Link` headers carry a `next` relation, and the raw
value of the `total_page` response header (absent = `none`). -/
structure PageResponse where
  text : String
  hasNext : Bool
  total_page : Option String
deriving DecidableEq, Repr

/-- The value held by the `total_page` local of
`GiteeClient.fetch_items` after the header inspection: the Python
`None` when the header is absent, the empty string when the header is
present but empty (falsy, so the conversion is skipped), or the
integer obtained from `int(total_page[0])` (only the first character
of the header value is converted). -/
inductive TotalPage where
  | noneTP
  | emptyStrTP
  | num (n : Nat)
deriving DecidableEq, Repr

/-- The header inspection of `GiteeClient.fetch_items`:
`total_page = response.headers.get('total_page')` followed by
`if total_page: total_page = int(total_page[0])`.  A non-digit first
character raises `ValueError` from `int`. -/
def parseTotalPage : Option String → Except Err TotalPage
  | none => .ok .noneTP
  | some s =>
    match s.data with
    | [] => .ok .emptyStrTP
    | c :: _ =>
      if c.isDigit then .ok (.num (c.toNat - 48))
      else .error (.valueError "invalid literal for int")

/-- The eager formatting `"Page: %i/%i" % (page, total_page)` executed
after every next-page fetch: it raises `TypeError` unless `total_page`
is a number. -/
def pageLogFmt : TotalPage → Except Err Unit
  | .num _ => .ok ()
  | .noneTP => .error (.typeError "%i format: a number is required, not NoneType")
  | .emptyStrTP => .error (.typeError "%i format: a number is required, not str")

/-- The `while items:` loop of `GiteeClient.fetch_items`: yield the
current body, then, if a `next` link is present, fetch that page,
run the progress-log formatting (which can raise), and continue with
the new body.  `rest` supplies the responses of the next-page
fetches; `Err.truncated` marks the model-only case where it runs
out. -/
def fetchItemsLoop (tp : TotalPage) :
    List PageResponse → PageResponse → List String → List String × Option Err
  | rest, cur, acc =>
    if cur.text = "" then (acc, none)
    else
      let acc2 := acc ++ [cur.text]
      if cur.hasNext then
        match rest with
        | [] => (acc2, some .truncated)
        | nxt :: rest2 =>
          match pageLogFmt tp with
          | .error e => (acc2, some e)
          | .ok _ => fetchItemsLoop tp rest2 nxt acc2
      else (acc2, none)

/-- `GiteeClient.fetch_items`: the first response is fetched, the
`total_page` header is inspected (possibly raising from `int`), and
then pages are yielded while bodies are truthy and `next` links are
present.  Returns the yielded page payloads and the exception that
ended the generator, if any. -/
def fetchItemsPages (first : PageResponse) (rest : List PageResponse) :
    List String × Option Err :=
  match parseTotalPage first.total_page with
  | .error e => ([], some e)
  | .ok tp => fetchItemsLoop tp rest first []

/-! ## Helper lemmas -/

theorem lookup_append_self {β : Type} (l : List (String × β)) (k : String) (v : β)
    (h : l.lookup k = none) : (l ++ [(k, v)]).lookup k = some v := by
  induction l with
  | nil => simp [List.lookup]
  | cons a rest ih =>
    cases a with
    | mk k1 v1 =>
      by_cases hk : k = k1
      · simp [List.lookup, hk] at h
      · have hbeq : (k == k1) = false := beq_eq_false_iff_ne.mpr hk
        simp only [List.lookup, hbeq] at h ⊢
        exact ih h

theorem takeWhile_append_all {α : Type} (q : α → Bool) (l1 l2 : List α)
    (h : ∀ a ∈ l1, q a = true) :
    (l1 ++ l2).takeWhile q = l1 ++ l2.takeWhile q := by
  induction l1 with
  | nil => simp
  | cons a rest ih =>
    have ha : q a = true := h a (by simp)
    simp [List.takeWhile, ha]
    exact ih (fun b hb => h b (by simp [hb]))

/-! ## C9: category classification -/

/-- C9: category classification is a pure function of the item shape:
a `base` key yields `pull_request`, otherwise a `forks_count` key
yields `repository`, otherwise `issue`; the three outcomes are
mutually exclusive and exhaustive. -/
theorem metadata_category_shape (it : RawItem) :
    (metadata_category it = CATEGORY_PULL_REQUEST ↔ "base" ∈ it.keys) ∧
    (metadata_category it = CATEGORY_REPO ↔
      ("base" ∉ it.keys ∧ "forks_count" ∈ it.keys)) ∧
    (metadata_category it = CATEGORY_ISSUE ↔
      ("base" ∉ it.keys ∧ "forks_count" ∉ it.keys)) := by
  unfold metadata_category CATEGORY_ISSUE CATEGORY_PULL_REQUEST CATEGORY_REPO
  by_cases hb : "base" ∈ it.keys <;> by_cases hf : "forks_count" ∈ it.keys <;>
    simp [hb, hf]

/-- Closed instance of `metadata_category_shape`. -/
theorem metadata_category_shape_witness :
    metadata_category ⟨["base", "forks_count"]⟩ = CATEGORY_PULL_REQUEST :=
  (metadata_category_shape ⟨["base", "forks_count"]⟩).1.mpr (by simp)

/-! ## C3: pagination termination -/

/-- C3: contrary to the claim, the `total_page` response header does
affect how many pages are yielded: with two upstream pages (`next`
link on the first, none on the second) and no `total_page` header,
the progress-log formatting raises `TypeError` right after the
second-page fetch, so only one payload is yielded; the same two pages
with any numeric header value (here a mismatched `"9"`) yield both
payloads, and a three-page list with header `"9"` yields all three. -/
theorem fetch_items_header_gates_output :
    fetchItemsPages ⟨"[i1]", true, none⟩ [⟨"[i2]", false, none⟩]
      = (["[i1]"],
         some (.typeError "%i format: a number is required, not NoneType")) ∧
    fetchItemsPages ⟨"[i1]", true, some "9"⟩ [⟨"[i2]", false, some "9"⟩]
      = (["[i1]", "[i2]"], none) ∧
    fetchItemsPages ⟨"[i1]", true, some "9"⟩
        [⟨"[i2]", true, some "9"⟩, ⟨"[i3]", false, some "9"⟩]
      = (["[i1]", "[i2]", "[i3]"], none) := by
  refine ⟨rfl, rfl, rfl⟩

/-! ## C10: category dispatch -/

/-- A fixed upstream used by closed witnesses below. -/
def sampleNet : NetOracles :=
  { issuePages := [], pullPages := [],
    issueCommentPages := fun _ => [],
    reviewCommentPages := fun _ => [],
    commitPages := fun _ => [],
    actionLogPages := fun _ => [],
    repoPayload := "repo", repoReleases := ["r1", "r2"] }

/-- A fixed user oracle used by closed witnesses below. -/
def sampleUsers : UserOracles :=
  { userPayload := fun l => .ok ("user:" ++ l),
    userOrgs := fun _ => .ok ["org1"] }

def sampleOracles : Oracles := { net := sampleNet, users := sampleUsers }

/-- C10 counterexample: the dispatch of `fetch_items` routes the
invalid category value `"bogus"` into its `else` branch, i.e. to the
repository driver, and that driver immediately issues network
requests — so within this code an invalid category is not rejected
before network activity. -/
theorem invalid_category_reaches_repo_driver :
    fetchItemsDispatch "bogus" = Driver.repoInfo ∧
    (fetchRepoInfo sampleOracles 0 emptyClientState).2.calls
      = [.repoEP, .repoReleasesEP] := by
  refine ⟨rfl, rfl⟩

/-- C10 (amended): `fetch_items` sends `issue` and `pull_request` to
their drivers and every other category value — the valid `repository`
as well as any invalid string — to the repository driver; rejection of
invalid categories is not performed by this dispatch. -/
theorem fetch_items_dispatch_routes (c : String) :
    fetchItemsDispatch CATEGORY_ISSUE = Driver.issues ∧
    fetchItemsDispatch CATEGORY_PULL_REQUEST = Driver.pulls ∧
    (c ≠ CATEGORY_ISSUE → c ≠ CATEGORY_PULL_REQUEST →
      fetchItemsDispatch c = Driver.repoInfo) := by
  refine ⟨rfl, rfl, fun h1 h2 => ?_⟩
  unfold fetchItemsDispatch
  rw [if_neg h1, if_neg h2]

/-- Closed instance of `fetch_items_dispatch_routes`. -/
theorem fetch_items_dispatch_routes_witness :
    fetchItemsDispatch "bogus" = Driver.repoInfo :=
  (fetch_items_dispatch_routes "bogus").2.2 (by decide) (by decide)

/-! ## C4: merged-by action-log scan -/

theorem mergedByLoop_last_page_wins (pages : List (List ActionLog))
    (r : Option String) :
    mergedByLoop pages r =
      (match mergedBySpec pages with
       | some x => some x
       | none => r) := by
  induction pages generalizing r with
  | nil => simp [mergedByLoop, mergedBySpec]
  | cons page rest ih =>
    cases h : firstMerged page with
    | none =>
      simp only [mergedByLoop, h, ih]
      unfold mergedBySpec
      rw [List.filterMap_cons_none h]
    | some l =>
      simp only [mergedByLoop, h, ih]
      unfold mergedBySpec
      rw [List.filterMap_cons_some h]
      cases hfm : rest.filterMap firstMerged with
      | nil => simp
      | cons y ys =>
        rw [List.getLast?_cons_cons]
        cases hg : (y :: ys).getLast? with
        | none => simp [List.getLast?_eq_none_iff] at hg
        | some z => simp

/-- The oracle of the C4 scenario: the action log of pull request 42
has two pages, the first without a merge entry, the second with one
merge entry for login `alice`. -/
def c4Net : NetOracles :=
  { sampleNet with
    actionLogPages := fun n =>
      if n = 42 then [[⟨"open_pr", "bob"⟩], [⟨"merged_pr", "alice"⟩]] else [] }

def c4Oracles : Oracles := { net := c4Net, users := sampleUsers }

/-- C4: the action-log scan takes, within each page, only the first
entry whose action type is the merge marker, keeps scanning later
pages, and a later page's match overwrites an earlier one — the
result is the first-in-page match of the **last** page containing a
match.  In the concrete scenario (pull request 42, page 1 without a
merge entry, page 2 with one for `alice`), the enriched pull request
carries `merged_by = alice` together with the fully resolved user
record for `alice`. -/
theorem merged_by_scan_rule :
    (∀ (os : Oracles) (n : Nat) (s : ClientState),
       (getPullMergedBy os n s).1 = mergedBySpec (os.net.actionLogPages n)) ∧
    (enrichPull false c4Oracles ⟨1, 42, 0, none, [], []⟩ emptyClientState).1
      = .ok ⟨⟨1, 42, 0, none, [], []⟩,
             { user_data := .emptyDict, assignees_data := none,
               testers_data := none, review_comments_data := some [],
               reviews_data := [], commits_data := [],
               merged_by := some "alice",
               merged_by_data := .usr ⟨"user:alice", ["org1"]⟩ }⟩ := by
  constructor
  · intro os n s
    rw [getPullMergedBy]
    rw [mergedByLoop_last_page_wins]
    cases mergedBySpec (os.net.actionLogPages n) <;> rfl
  · rfl

/-! ## C7: tolerated not-found -/

/-- The oracle of the C7 counterexample: the commits sub-fetch of pull
request 7 delivers one good page and then raises HTTP 404. -/
def c7Net : NetOracles :=
  { sampleNet with commitPages := fun _ => [.ok ["a"], .error (.http 404)] }

def c7Oracles : Oracles := { net := c7Net, users := sampleUsers }

/-- C7 counterexample: a commits sub-fetch whose second page raises
HTTP 404 returns the hashes gathered from the first page — a
non-empty result, not the empty result the claim states. -/
theorem commits_not_found_partial_result :
    (getPullCommits c7Oracles 7 emptyClientState).1 = .ok ["a"] ∧
    (["a"] : List String) ≠ ([] : List String) := by
  refine ⟨rfl, by decide⟩

/-- C7 (amended): HTTP not-found is tolerated for exactly the
pull-commit, review-comment and organization sub-fetches: commits and
review comments return what was accumulated before the failure (empty
when the first page fails) and the organization fetch returns an
empty list; for these same sub-fetches any other status code
propagates unchanged — while e.g. the issue-comment sub-fetch
propagates even a 404. -/
theorem not_found_tolerance :
    (∀ (okPages : List (List String)) (rest : List (Except Err (List String)))
       (acc : List String),
       commitPagesLoop (okPages.map .ok ++ .error (.http 404) :: rest) acc
         = .ok (acc ++ okPages.flatten)) ∧
    (∀ (okPages : List (List String)) (rest : List (Except Err (List String)))
       (acc : List String) (c : Nat), c ≠ 404 →
       commitPagesLoop (okPages.map .ok ++ .error (.http c) :: rest) acc
         = .error (.http c)) ∧
    (∀ (exclude : Bool) (os : Oracles) (rest : List (Except Err (List Comment)))
       (acc : List EnrichedComment) (s : ClientState),
       reviewPagesLoop exclude os (.error (.http 404) :: rest) acc s
         = (.ok acc, s)) ∧
    (∀ (exclude : Bool) (os : Oracles) (rest : List (Except Err (List Comment)))
       (acc : List EnrichedComment) (s : ClientState) (c : Nat), c ≠ 404 →
       reviewPagesLoop exclude os (.error (.http c) :: rest) acc s
         = (.error (.http c), s)) ∧
    (∀ (os : Oracles) (login : String) (s : ClientState),
       s.userOrgsCache.lookup login = none →
       os.users.userOrgs login = .error (.http 404) →
       (clientUserOrgs os login s).1 = .ok []) ∧
    (∀ (os : Oracles) (login : String) (s : ClientState) (c : Nat), c ≠ 404 →
       s.userOrgsCache.lookup login = none →
       os.users.userOrgs login = .error (.http c) →
       (clientUserOrgs os login s).1 = .error (.http c)) ∧
    (∀ (exclude : Bool) (os : Oracles) (rest : List (Except Err (List Comment)))
       (acc : List EnrichedComment) (s : ClientState),
       issueCommentsLoop exclude os (.error (.http 404) :: rest) acc s
         = (.error (.http 404), s)) := by
  refine ⟨?_, ?_, ?_, ?_, ?_, ?_, ?_⟩
  · intro okPages rest acc
    induction okPages generalizing acc with
    | nil => simp [commitPagesLoop]
    | cons p ps ih => simp [commitPagesLoop, ih]
  · intro okPages rest acc c hc
    have hne : Err.http c ≠ Err.http 404 := by
      intro h; exact hc (by injection h)
    induction okPages generalizing acc with
    | nil => simp [commitPagesLoop, hne]
    | cons p ps ih => simp [commitPagesLoop, ih]
  · intro exclude os rest acc s
    simp [reviewPagesLoop]
  · intro exclude os rest acc s c hc
    have hne : Err.http c ≠ Err.http 404 := by
      intro h; exact hc (by injection h)
    simp [reviewPagesLoop, hne]
  · intro os login s hcache horacle
    simp [clientUserOrgs, hcache, horacle]
  · intro os login s c hc hcache horacle
    have hne : Err.http c ≠ Err.http 404 := by
      intro h; exact hc (by injection h)
    simp [clientUserOrgs, hcache, horacle, hne]
  · intro exclude os rest acc s
    simp [issueCommentsLoop]

/-- Closed instance of `not_found_tolerance`: a non-404 failure of a
commits sub-fetch propagates unchanged. -/
theorem not_found_tolerance_witness :
    commitPagesLoop ([["a"]].map .ok ++ .error (.http 500) :: []) []
      = .error (.http 500) :=
  not_found_tolerance.2.1 [["a"]] [] [] 500 (by decide)

/-! ## C8: missing-user guard -/

/-- The oracle of the C8 counterexample: issue 5 has one comment page
whose single comment lacks a `user` reference. -/
def c8Net : NetOracles :=
  { sampleNet with issueCommentPages := fun _ => [.ok [⟨1, none, "u1"⟩]] }

def c8Oracles : Oracles := { net := c8Net, users := sampleUsers }

/-- C8 counterexample: an issue comment whose payload lacks a `user`
reference makes `__get_issue_comments` raise a key lookup error (from
`comment['user']['login']`) instead of storing an absent user and a
warning — so for issue comments the claim fails. -/
theorem issue_comment_missing_user_raises :
    (getIssueComments false c8Oracles 5 emptyClientState).1
      = .error (.keyError "user") ∧
    (getIssueComments false c8Oracles 5 emptyClientState).2.warnings = [] := by
  refine ⟨rfl, rfl⟩

/-- C8 (amended): a pull-request review comment lacking a user
reference has its `user_data` set to the absent value and a warning
recorded, and processing continues without raising; issue-comment
enrichment, by contrast, raises a key lookup error on such a
payload. -/
theorem missing_user_guard (exclude : Bool) (os : Oracles) (c : Comment)
    (rest : List Comment) (acc : List EnrichedComment) (s : ClientState)
    (h : c.user = none) :
    reviewCommentsEnrich exclude os (c :: rest) acc s
      = reviewCommentsEnrich exclude os rest (acc ++ [⟨c, none⟩])
          (logWarning s ("Missing user info for " ++ c.url)) ∧
    commentsEnrich exclude os (c :: rest) acc s
      = (.error (.keyError "user"), s) := by
  constructor
  · rw [reviewCommentsEnrich, h]
  · rw [commentsEnrich, h]

/-- Closed instance of `missing_user_guard`. -/
theorem missing_user_guard_witness :
    reviewCommentsEnrich false sampleOracles [⟨1, none, "u"⟩] [] emptyClientState
      = reviewCommentsEnrich false sampleOracles []
          ([] ++ [⟨⟨1, none, "u"⟩, none⟩])
          (logWarning emptyClientState ("Missing user info for " ++ "u")) ∧
    commentsEnrich false sampleOracles [⟨1, none, "u"⟩] [] emptyClientState
      = (.error (.keyError "user"), emptyClientState) :=
  missing_user_guard false sampleOracles ⟨1, none, "u"⟩ [] [] emptyClientState rfl

/-! ## C5: identity-cache idempotence -/

/-- Closed form of `__get_user` on a login missing from both caches:
one user request then one organizations request, both results
cached. -/
theorem getUser_uncached (os : Oracles) (login : String) (s : ClientState)
    (hlogin : login ≠ "")
    (hu : s.usersCache.lookup login = none)
    (ho : s.userOrgsCache.lookup login = none) :
    getUser false os login s =
      (match os.users.userPayload login with
       | .error e => (.error e, { s with calls := s.calls ++ [.userEP login] })
       | .ok payload =>
         match os.users.userOrgs login with
         | .ok orgs =>
           (.ok (some ⟨payload, orgs⟩),
            { s with calls := s.calls ++ [.userEP login, .userOrgsEP login],
                     usersCache := s.usersCache ++ [(login, payload)],
                     userOrgsCache := s.userOrgsCache ++ [(login, orgs)] })
         | .error e =>
           if e = .http 404 then
             (.ok (some ⟨payload, []⟩),
              { s with calls := s.calls ++ [.userEP login, .userOrgsEP login],
                       usersCache := s.usersCache ++ [(login, payload)],
                       userOrgsCache := s.userOrgsCache ++ [(login, [])] })
           else
             (.error e,
              { s with calls := s.calls ++ [.userEP login, .userOrgsEP login],
                       usersCache := s.usersCache ++ [(login, payload)] })) := by
  unfold getUser clientUser clientUserOrgs logCall
  rw [if_neg (by simp [hlogin])]
  simp only [hu]
  cases hp : os.users.userPayload login with
  | error e => simp [hp]
  | ok payload =>
    simp only [hp, ho]
    cases hq : os.users.userOrgs login with
    | ok orgs => simp [hq]
    | error e =>
      simp only [hq]
      by_cases he : e = .http 404
      · simp [he]
      · simp [he]

/-- Closed form of `__get_user` on a login present in both caches: no
request, no state change. -/
theorem getUser_cached (os : Oracles) (login : String) (s : ClientState)
    (payload : String) (orgs : List String)
    (hlogin : login ≠ "")
    (h1 : s.usersCache.lookup login = some payload)
    (h2 : s.userOrgsCache.lookup login = some orgs) :
    getUser false os login s = (.ok (some ⟨payload, orgs⟩), s) := by
  unfold getUser clientUser clientUserOrgs
  rw [if_neg (by simp [hlogin])]
  simp [h1, h2]

/-- C5: for a non-empty login that is not yet cached, resolving the
login issues exactly one user request followed by exactly one
organizations request, and resolving it again returns the very same
composite with the state unchanged — zero additional requests. -/
theorem user_cache_idempotent (os : Oracles) (login : String) (s0 : ClientState)
    (u : Option UserRec) (s1 : ClientState)
    (hlogin : login ≠ "")
    (hu : s0.usersCache.lookup login = none)
    (ho : s0.userOrgsCache.lookup login = none)
    (h1 : getUser false os login s0 = (.ok u, s1)) :
    s1.calls = s0.calls ++ [.userEP login, .userOrgsEP login] ∧
    getUser false os login s1 = (.ok u, s1) := by
  rw [getUser_uncached os login s0 hlogin hu ho] at h1
  cases hp : os.users.userPayload login with
  | error e => rw [hp] at h1; simp at h1
  | ok payload =>
    rw [hp] at h1
    cases hq : os.users.userOrgs login with
    | ok orgs =>
      rw [hq] at h1
      simp only [Prod.mk.injEq, Except.ok.injEq] at h1
      obtain ⟨huu, hs1⟩ := h1
      subst huu
      subst hs1
      refine ⟨by simp, ?_⟩
      exact getUser_cached os login _ payload orgs hlogin
        (lookup_append_self _ _ _ hu) (lookup_append_self _ _ _ ho)
    | error e =>
      rw [hq] at h1
      simp only [] at h1
      by_cases he : e = .http 404
      · rw [if_pos he] at h1
        simp only [Prod.mk.injEq, Except.ok.injEq] at h1
        obtain ⟨huu, hs1⟩ := h1
        subst huu
        subst hs1
        refine ⟨by simp, ?_⟩
        exact getUser_cached os login _ payload [] hlogin
          (lookup_append_self _ _ _ hu) (lookup_append_self _ _ _ ho)
      · rw [if_neg he] at h1
        simp at h1

/-- Closed instance of `user_cache_idempotent` at login `alice`
against the sample oracles, starting from the empty session state. -/
theorem user_cache_idempotent_witness :
    ({ usersCache := [("alice", "user:alice")],
       userOrgsCache := [("alice", ["org1"])],
       calls := [.userEP "alice", .userOrgsEP "alice"],
       warnings := [] } : ClientState).calls
        = emptyClientState.calls ++ [.userEP "alice", .userOrgsEP "alice"] ∧
    getUser false sampleOracles "alice"
        { usersCache := [("alice", "user:alice")],
          userOrgsCache := [("alice", ["org1"])],
          calls := [.userEP "alice", .userOrgsEP "alice"],
          warnings := [] }
      = (.ok (some ⟨"user:alice", ["org1"]⟩),
         { usersCache := [("alice", "user:alice")],
           userOrgsCache := [("alice", ["org1"])],
           calls := [.userEP "alice", .userOrgsEP "alice"],
           warnings := [] }) :=
  user_cache_idempotent sampleOracles "alice" emptyClientState
    (some ⟨"user:alice", ["org1"]⟩)
    { usersCache := [("alice", "user:alice")],
      userOrgsCache := [("alice", ["org1"])],
      calls := [.userEP "alice", .userOrgsEP "alice"],
      warnings := [] }
    (by decide) rfl rfl rfl

/-! ## C1: issue harvest stops at the upper bound -/

/-- Boolean form of the issue continuation condition: the update time
does not exceed `to_date`. -/
def withinTo (toDate : Int) (i : Issue) : Bool := decide (i.updated_at ≤ toDate)

theorem enrichIssue_ok_issue (exclude : Bool) (os : Oracles) (i : Issue)
    (s : ClientState) (e : EnrichedIssue) (s1 : ClientState)
    (h : enrichIssue exclude os i s = (.ok e, s1)) : e.issue = i := by
  unfold enrichIssue at h
  cases hx : issueExtras exclude os i s with
  | mk r s2 =>
    rw [hx] at h
    cases r with
    | error err => simp at h
    | ok ex =>
      simp only [Prod.mk.injEq, Except.ok.injEq] at h
      obtain ⟨he, _⟩ := h
      subst he
      rfl

theorem issuesPageLoop_characterize (exclude : Bool) (os : Oracles) (toDate : Int)
    (p : List Issue) (acc : List EnrichedIssue) (s : ClientState)
    (acc2 : List EnrichedIssue) (s2 : ClientState) (oc : Outcome)
    (h : issuesPageLoop exclude os toDate p acc s = (acc2, s2, oc)) :
    (oc = .ok →
      acc2.map EnrichedIssue.issue = acc.map EnrichedIssue.issue ++ p ∧
      ∀ i ∈ p, withinTo toDate i = true) ∧
    (oc = .stop → ∀ l,
      acc2.map EnrichedIssue.issue
        = acc.map EnrichedIssue.issue ++ (p ++ l).takeWhile (withinTo toDate)) := by
  induction p generalizing acc s with
  | nil =>
    simp only [issuesPageLoop, Prod.mk.injEq] at h
    obtain ⟨h1, h2, h3⟩ := h
    subst h1; subst h3
    constructor
    · intro _; exact ⟨by simp, by simp⟩
    · intro hstop; cases hstop
  | cons i rest ih =>
    by_cases hc : toDate < i.updated_at
    · have hred : issuesPageLoop exclude os toDate (i :: rest) acc s
          = (acc, s, .stop) := by
        simp [issuesPageLoop, hc]
      rw [hred] at h
      obtain ⟨h1, h2, h3⟩ := by
        simpa only [Prod.mk.injEq] using h
      subst h1; subst h3
      have hw : withinTo toDate i = false := by
        unfold withinTo
        simp only [decide_eq_false_iff_not, not_le]
        exact hc
      constructor
      · intro hok; cases hok
      · intro _ l
        simp [List.takeWhile_cons, hw]
    · cases he : enrichIssue exclude os i s with
      | mk r s1 =>
        cases r with
        | error err =>
          have hred : issuesPageLoop exclude os toDate (i :: rest) acc s
              = (acc, s1, .err err) := by
            simp [issuesPageLoop, hc, he]
          rw [hred] at h
          obtain ⟨h1, h2, h3⟩ := by
            simpa only [Prod.mk.injEq] using h
          subst h3
          constructor
          · intro hok; cases hok
          · intro hstop; cases hstop
        | ok e =>
          have hred : issuesPageLoop exclude os toDate (i :: rest) acc s
              = issuesPageLoop exclude os toDate rest (acc ++ [e]) s1 := by
            simp [issuesPageLoop, hc, he]
          rw [hred] at h
          have hi : e.issue = i := enrichIssue_ok_issue exclude os i s e s1 he
          have hw : withinTo toDate i = true := by
            unfold withinTo
            simp only [decide_eq_true_eq]
            omega
          have := ih (acc ++ [e]) s1 h
          constructor
          · intro hok
            obtain ⟨hmap, hall⟩ := this.1 hok
            constructor
            · rw [hmap]; simp [hi]
            · intro j hj
              rw [List.mem_cons] at hj
              rcases hj with rfl | hj
              · exact hw
              · exact hall j hj
          · intro hstop l
            have hmap := this.2 hstop l
            rw [hmap]
            simp [hi, List.takeWhile_cons, hw, List.append_assoc]

theorem issuesLoop_clean (exclude : Bool) (os : Oracles) (toDate : Int)
    (pages : List (List Issue)) (acc : List EnrichedIssue) (s : ClientState)
    (h : (issuesLoop exclude os toDate pages acc s).error = none) :
    (issuesLoop exclude os toDate pages acc s).emitted.map EnrichedIssue.issue
      = acc.map EnrichedIssue.issue
        ++ pages.flatten.takeWhile (withinTo toDate) := by
  induction pages generalizing acc s with
  | nil => simp [issuesLoop]
  | cons p ps ih =>
    cases hpl : issuesPageLoop exclude os toDate p acc s with
    | mk acc2 rest2 =>
      cases rest2 with
      | mk s2 oc =>
        have hchar := issuesPageLoop_characterize exclude os toDate p acc s
          acc2 s2 oc hpl
        cases oc with
        | ok =>
          have hred : issuesLoop exclude os toDate (p :: ps) acc s
              = issuesLoop exclude os toDate ps acc2 s2 := by
            simp [issuesLoop, hpl]
          rw [hred] at h ⊢
          obtain ⟨hmap, hall⟩ := hchar.1 rfl
          rw [ih acc2 s2 h, hmap]
          rw [List.flatten_cons,
              takeWhile_append_all (withinTo toDate) p ps.flatten hall]
          simp [List.append_assoc]
        | stop =>
          have hred : issuesLoop exclude os toDate (p :: ps) acc s
              = ⟨acc2, none, s2⟩ := by
            simp [issuesLoop, hpl]
          rw [hred]
          have hmap := hchar.2 rfl ps.flatten
          simpa [List.flatten_cons] using hmap
        | err e =>
          have hred : issuesLoop exclude os toDate (p :: ps) acc s
              = ⟨acc2, some e, s2⟩ := by
            simp [issuesLoop, hpl]
          rw [hred] at h
          simp at h

/-- C1: when the upstream issue pages are sorted ascending by update
time, a clean issue harvest emits exactly the longest prefix of the
flattened upstream list whose update times do not exceed `to_date`:
the run stops at the first record above the bound, every emitted
issue satisfies the bound, and the emitted records form a prefix of
the upstream list. -/
theorem issues_stop_at_to_date (exclude : Bool) (os : Oracles) (toDate : Int)
    (s0 : ClientState)
    (hsorted : os.net.issuePages.flatten.Pairwise
      (fun a b => a.updated_at ≤ b.updated_at))
    (hclean : (runIssues exclude os toDate s0).error = none) :
    (runIssues exclude os toDate s0).emitted.map EnrichedIssue.issue
      = os.net.issuePages.flatten.takeWhile (withinTo toDate) ∧
    (∀ e ∈ (runIssues exclude os toDate s0).emitted,
       e.issue.updated_at ≤ toDate) ∧
    (∃ t, (runIssues exclude os toDate s0).emitted.map EnrichedIssue.issue ++ t
        = os.net.issuePages.flatten) := by
  unfold runIssues at hclean ⊢
  have hmain := issuesLoop_clean exclude os toDate os.net.issuePages []
    (logCall s0 .issuesEP) hclean
  simp only [List.map_nil, List.nil_append] at hmain
  refine ⟨hmain, ?_, ?_⟩
  · intro e he
    have : e.issue ∈ (issuesLoop exclude os toDate os.net.issuePages []
        (logCall s0 .issuesEP)).emitted.map EnrichedIssue.issue :=
      List.mem_map_of_mem EnrichedIssue.issue he
    rw [hmain] at this
    have := List.mem_takeWhile_imp this
    unfold withinTo at this
    simpa using this
  · refine ⟨os.net.issuePages.flatten.dropWhile (withinTo toDate), ?_⟩
    rw [hmain]
    exact List.takeWhile_append_dropWhile (withinTo toDate) _

/-- The oracle of the C1 witness: three issues with ascending update
times 1, 2, 5 spread over two pages; `to_date = 3` cuts after the
second. -/
def c1Net : NetOracles :=
  { sampleNet with
    issuePages := [[⟨1, 1, 1, none, none, [], 0⟩, ⟨2, 2, 2, none, none, [], 0⟩],
                   [⟨3, 3, 5, none, none, [], 0⟩]] }

def c1Oracles : Oracles := { net := c1Net, users := sampleUsers }

/-- Closed instance of `issues_stop_at_to_date`. -/
theorem issues_stop_at_to_date_witness :
    (runIssues false c1Oracles 3 emptyClientState).emitted.map EnrichedIssue.issue
      = c1Oracles.net.issuePages.flatten.takeWhile (withinTo 3) :=
  (issues_stop_at_to_date false c1Oracles 3 emptyClientState
    (by decide) (by decide)).1

/-! ## C2: pull-request harvest stops at both bounds -/

/-- Boolean form of the pull continuation condition: the update time
is neither below `from_date` nor above `to_date`. -/
def withinRange (fromDate toDate : Int) (p : Pull) : Bool :=
  decide (fromDate ≤ p.updated_at ∧ p.updated_at ≤ toDate)

theorem enrichPull_ok_pull (exclude : Bool) (os : Oracles) (p : Pull)
    (s : ClientState) (e : EnrichedPull) (s1 : ClientState)
    (h : enrichPull exclude os p s = (.ok e, s1)) : e.pull = p := by
  unfold enrichPull at h
  cases hx : pullExtras exclude os p s with
  | mk r s2 =>
    rw [hx] at h
    cases r with
    | error err => simp at h
    | ok ex =>
      simp only [Prod.mk.injEq, Except.ok.injEq] at h
      obtain ⟨he, _⟩ := h
      subst he
      rfl

theorem pullsPageLoop_characterize (exclude : Bool) (os : Oracles)
    (fromDate toDate : Int) (p : List Pull) (acc : List EnrichedPull)
    (s : ClientState) (acc2 : List EnrichedPull) (s2 : ClientState) (oc : Outcome)
    (h : pullsPageLoop exclude os fromDate toDate p acc s = (acc2, s2, oc)) :
    (oc = .ok →
      acc2.map EnrichedPull.pull = acc.map EnrichedPull.pull ++ p ∧
      ∀ i ∈ p, withinRange fromDate toDate i = true) ∧
    (oc = .stop → ∀ l,
      acc2.map EnrichedPull.pull
        = acc.map EnrichedPull.pull
          ++ (p ++ l).takeWhile (withinRange fromDate toDate)) := by
  induction p generalizing acc s with
  | nil =>
    simp only [pullsPageLoop, Prod.mk.injEq] at h
    obtain ⟨h1, h2, h3⟩ := h
    subst h1; subst h3
    constructor
    · intro _; exact ⟨by simp, by simp⟩
    · intro hstop; cases hstop
  | cons i rest ih =>
    by_cases hc : i.updated_at < fromDate ∨ toDate < i.updated_at
    · have hred : pullsPageLoop exclude os fromDate toDate (i :: rest) acc s
          = (acc, s, .stop) := by
        simp only [pullsPageLoop]
        rw [if_pos hc]
      rw [hred] at h
      obtain ⟨h1, h2, h3⟩ := by
        simpa only [Prod.mk.injEq] using h
      subst h1; subst h3
      have hw : withinRange fromDate toDate i = false := by
        unfold withinRange
        simp only [decide_eq_false_iff_not, not_and, not_le]
        omega
      constructor
      · intro hok; cases hok
      · intro _ l
        simp [List.takeWhile_cons, hw]
    · cases he : enrichPull exclude os i s with
      | mk r s1 =>
        cases r with
        | error err =>
          have hred : pullsPageLoop exclude os fromDate toDate (i :: rest) acc s
              = (acc, s1, .err err) := by
            simp only [pullsPageLoop]
            rw [if_neg hc, he]
          rw [hred] at h
          obtain ⟨h1, h2, h3⟩ := by
            simpa only [Prod.mk.injEq] using h
          subst h3
          constructor
          · intro hok; cases hok
          · intro hstop; cases hstop
        | ok e =>
          have hred : pullsPageLoop exclude os fromDate toDate (i :: rest) acc s
              = pullsPageLoop exclude os fromDate toDate rest (acc ++ [e]) s1 := by
            simp only [pullsPageLoop]
            rw [if_neg hc, he]
          rw [hred] at h
          have hi : e.pull = i := enrichPull_ok_pull exclude os i s e s1 he
          have hw : withinRange fromDate toDate i = true := by
            unfold withinRange
            simp only [decide_eq_true_eq]
            omega
          have := ih (acc ++ [e]) s1 h
          constructor
          · intro hok
            obtain ⟨hmap, hall⟩ := this.1 hok
            constructor
            · rw [hmap]; simp [hi]
            · intro j hj
              rw [List.mem_cons] at hj
              rcases hj with rfl | hj
              · exact hw
              · exact hall j hj
          · intro hstop l
            have hmap := this.2 hstop l
            rw [hmap]
            simp [hi, List.takeWhile_cons, hw, List.append_assoc]

theorem pullsLoop_clean (exclude : Bool) (os : Oracles) (fromDate toDate : Int)
    (pages : List (List Pull)) (acc : List EnrichedPull) (s : ClientState)
    (h : (pullsLoop exclude os fromDate toDate pages acc s).error = none) :
    (pullsLoop exclude os fromDate toDate pages acc s).emitted.map
        EnrichedPull.pull
      = acc.map EnrichedPull.pull
        ++ pages.flatten.takeWhile (withinRange fromDate toDate) := by
  induction pages generalizing acc s with
  | nil => simp [pullsLoop]
  | cons p ps ih =>
    cases hpl : pullsPageLoop exclude os fromDate toDate p acc s with
    | mk acc2 rest2 =>
      cases rest2 with
      | mk s2 oc =>
        have hchar := pullsPageLoop_characterize exclude os fromDate toDate p
          acc s acc2 s2 oc hpl
        cases oc with
        | ok =>
          have hred : pullsLoop exclude os fromDate toDate (p :: ps) acc s
              = pullsLoop exclude os fromDate toDate ps acc2 s2 := by
            simp [pullsLoop, hpl]
          rw [hred] at h ⊢
          obtain ⟨hmap, hall⟩ := hchar.1 rfl
          rw [ih acc2 s2 h, hmap]
          rw [List.flatten_cons,
              takeWhile_append_all (withinRange fromDate toDate) p ps.flatten hall]
          simp [List.append_assoc]
        | stop =>
          have hred : pullsLoop exclude os fromDate toDate (p :: ps) acc s
              = ⟨acc2, none, s2⟩ := by
            simp [pullsLoop, hpl]
          rw [hred]
          have hmap := hchar.2 rfl ps.flatten
          simpa [List.flatten_cons] using hmap
        | err e =>
          have hred : pullsLoop exclude os fromDate toDate (p :: ps) acc s
              = ⟨acc2, some e, s2⟩ := by
            simp [pullsLoop, hpl]
          rw [hred] at h
          simp at h

/-- C2: a clean pull-request harvest stops the whole sequence at the
first record whose update time is strictly below `from_date` or
strictly above `to_date` (both bounds, unlike the issue driver): the
emitted records are exactly the longest prefix of the flattened
upstream list whose update times lie within the window, so no emitted
pull request violates either bound. -/
theorem pulls_stop_at_both_bounds (exclude : Bool) (os : Oracles)
    (fromDate toDate : Int) (s0 : ClientState)
    (hclean : (runPulls exclude os fromDate toDate s0).error = none) :
    (runPulls exclude os fromDate toDate s0).emitted.map EnrichedPull.pull
      = os.net.pullPages.flatten.takeWhile (withinRange fromDate toDate) ∧
    (∀ e ∈ (runPulls exclude os fromDate toDate s0).emitted,
       fromDate ≤ e.pull.updated_at ∧ e.pull.updated_at ≤ toDate) ∧
    (∃ t, (runPulls exclude os fromDate toDate s0).emitted.map
        EnrichedPull.pull ++ t = os.net.pullPages.flatten) := by
  unfold runPulls at hclean ⊢
  have hmain := pullsLoop_clean exclude os fromDate toDate os.net.pullPages []
    (logCall s0 .pullsEP) hclean
  simp only [List.map_nil, List.nil_append] at hmain
  refine ⟨hmain, ?_, ?_⟩
  · intro e he
    have : e.pull ∈ (pullsLoop exclude os fromDate toDate os.net.pullPages []
        (logCall s0 .pullsEP)).emitted.map EnrichedPull.pull :=
      List.mem_map_of_mem EnrichedPull.pull he
    rw [hmain] at this
    have := List.mem_takeWhile_imp this
    unfold withinRange at this
    simpa using this
  · refine ⟨os.net.pullPages.flatten.dropWhile (withinRange fromDate toDate), ?_⟩
    rw [hmain]
    exact List.takeWhile_append_dropWhile (withinRange fromDate toDate) _

/-- The oracle of the C2 witness: pulls with update times 1, 2, 5 on
one page; the window [2, 7] cuts immediately at the first record
(time 1 is below `from_date`). -/
def c2Net : NetOracles :=
  { sampleNet with
    pullPages := [[⟨1, 1, 1, none, [], []⟩, ⟨2, 2, 2, none, [], []⟩,
                   ⟨3, 3, 5, none, [], []⟩]] }

def c2Oracles : Oracles := { net := c2Net, users := sampleUsers }

/-- Closed instance of `pulls_stop_at_both_bounds`. -/
theorem pulls_stop_at_both_bounds_witness :
    (runPulls false c2Oracles 2 7 emptyClientState).emitted.map EnrichedPull.pull
      = c2Oracles.net.pullPages.flatten.takeWhile (withinRange 2 7) :=
  (pulls_stop_at_both_bounds false c2Oracles 2 7 emptyClientState (by decide)).1

/-! ## C6: classification filtering is a privacy guarantee

Closed forms of the enrichment primitives when `exclude_user_data`
is active: no function below touches the user oracles or the user
caches, and no `users/*` request is ever logged. -/

theorem getUser_exclude (os : Oracles) (login : String) (s : ClientState) :
    getUser true os login s = (.ok none, s) := by
  unfold getUser
  rw [if_pos (Or.inr rfl)]

theorem getUsers_exclude (os : Oracles) (logins : List String) (s : ClientState) :
    getUsers true os logins s = (.ok (logins.map fun _ => none), s) := by
  induction logins with
  | nil => rfl
  | cons l rest ih => simp [getUsers, getUser_exclude, ih]

/-- The resolved-user field produced for a raw user entry when
filtering is active: the `{}` placeholder survives for a falsy entry,
a truthy entry resolves to `None`. -/
def userDataPure : Option String → UserData
  | none => .emptyDict
  | some _ => .null

/-- Pure mirror of `commentsEnrich` under active filtering. -/
def commentsEnrichPure : List Comment → List EnrichedComment →
    Except Err (List EnrichedComment)
  | [], acc => .ok acc
  | c :: rest, acc =>
    match c.user with
    | none => .error (.keyError "user")
    | some _ => commentsEnrichPure rest (acc ++ [⟨c, none⟩])

theorem commentsEnrich_exclude (os : Oracles) (cs : List Comment)
    (acc : List EnrichedComment) (s : ClientState) :
    commentsEnrich true os cs acc s = (commentsEnrichPure cs acc, s) := by
  induction cs generalizing acc with
  | nil => rfl
  | cons c rest ih =>
    cases hu : c.user with
    | none => simp [commentsEnrich, commentsEnrichPure, hu]
    | some login => simp [commentsEnrich, commentsEnrichPure, hu, getUser_exclude, ih]

/-- Pure mirror of `issueCommentsLoop` under active filtering. -/
def issueCommentsLoopPure : List (Except Err (List Comment)) →
    List EnrichedComment → Except Err (List EnrichedComment)
  | [], acc => .ok acc
  | .error e :: _, _ => .error e
  | .ok cs :: rest, acc =>
    match commentsEnrichPure cs acc with
    | .error e => .error e
    | .ok acc2 => issueCommentsLoopPure rest acc2

theorem issueCommentsLoop_exclude (os : Oracles)
    (pages : List (Except Err (List Comment)))
    (acc : List EnrichedComment) (s : ClientState) :
    issueCommentsLoop true os pages acc s = (issueCommentsLoopPure pages acc, s) := by
  induction pages generalizing acc with
  | nil => rfl
  | cons pg rest ih =>
    cases pg with
    | error e => simp [issueCommentsLoop, issueCommentsLoopPure]
    | ok cs =>
      rw [issueCommentsLoop, commentsEnrich_exclude]
      cases hr : commentsEnrichPure cs acc with
      | error e => simp [issueCommentsLoopPure, hr]
      | ok acc2 => simp [issueCommentsLoopPure, hr, ih]

theorem issueUserStep_exclude (os : Oracles) (i : Issue) (s : ClientState) :
    issueUserStep true os i s = (.ok (userDataPure i.user), s) := by
  cases hu : i.user <;>
    simp [issueUserStep, userDataPure, userDataOfOpt, hu, getUser_exclude]

theorem issueAssigneeStep_exclude (os : Oracles) (i : Issue) (s : ClientState) :
    issueAssigneeStep true os i s = (.ok (userDataPure i.assignee), s) := by
  cases hu : i.assignee <;>
    simp [issueAssigneeStep, getIssueAssignee, userDataPure, userDataOfOpt, hu,
          getUser_exclude]

theorem issueCollaboratorsStep_exclude (os : Oracles) (i : Issue) (s : ClientState) :
    issueCollaboratorsStep true os i s
      = (.ok (if i.collaborators = [] then none
              else some (i.collaborators.map fun _ => none)), s) := by
  by_cases hc : i.collaborators = [] <;>
    simp [issueCollaboratorsStep, getIssueCollaborators, hc, getUsers_exclude]

/-- The state left behind by the issue enrichment under active
filtering: only the issue-comments request (when the comment count is
truthy) is added. -/
def issueEnrichState (net : NetOracles) (i : Issue) (s : ClientState) : ClientState :=
  if i.comments = 0 then s else logCall s (.issueCommentsEP i.number)

theorem issueCommentsStep_exclude (os : Oracles) (i : Issue) (s : ClientState) :
    issueCommentsStep true os i s
      = ((if i.comments = 0 then .ok []
          else issueCommentsLoopPure (os.net.issueCommentPages i.number) []),
         issueEnrichState os.net i s) := by
  by_cases hc : i.comments = 0 <;>
    simp [issueCommentsStep, getIssueComments, issueEnrichState, hc,
          issueCommentsLoop_exclude]

/-- Pure mirror of the issue enrichment under active filtering. -/
def issueExtrasPure (net : NetOracles) (i : Issue) : Except Err IssueExtras :=
  match (if i.comments = 0 then .ok []
         else issueCommentsLoopPure (net.issueCommentPages i.number) []) with
  | .error e => .error e
  | .ok cmts =>
    .ok { user_data := userDataPure i.user,
          assignee_data := userDataPure i.assignee,
          assignees_data := [],
          collaborators_data := if i.collaborators = [] then none
                                else some (i.collaborators.map fun _ => none),
          comments_data := cmts }

theorem issueExtras_exclude (os : Oracles) (i : Issue) (s : ClientState) :
    issueExtras true os i s = (issueExtrasPure os.net i, issueEnrichState os.net i s) := by
  unfold issueExtras
  simp only [issueUserStep_exclude, issueAssigneeStep_exclude,
             issueCollaboratorsStep_exclude, issueCommentsStep_exclude]
  unfold issueExtrasPure
  cases hr : (if i.comments = 0 then (.ok [] : Except Err (List EnrichedComment))
              else issueCommentsLoopPure (os.net.issueCommentPages i.number) []) with
  | error e => simp [hr]
  | ok cmts => simp [hr]

/-- Pure mirror of `enrichIssue` under active filtering. -/
def enrichIssuePure (net : NetOracles) (i : Issue) : Except Err EnrichedIssue :=
  match issueExtrasPure net i with
  | .error e => .error e
  | .ok ex => .ok ⟨i, ex⟩

theorem enrichIssue_exclude (os : Oracles) (i : Issue) (s : ClientState) :
    enrichIssue true os i s = (enrichIssuePure os.net i, issueEnrichState os.net i s) := by
  unfold enrichIssue enrichIssuePure
  rw [issueExtras_exclude]
  cases issueExtrasPure os.net i <;> rfl

theorem issueEnrichState_filter (net : NetOracles) (i : Issue) (s : ClientState) :
    (issueEnrichState net i s).calls.filter isUserCall
      = s.calls.filter isUserCall := by
  unfold issueEnrichState logCall
  by_cases hc : i.comments = 0 <;> simp [hc, List.filter_append, isUserCall]

theorem issuesPageLoop_exclude (net : NetOracles) (u1 u2 : UserOracles)
    (toDate : Int) (p : List Issue) (acc : List EnrichedIssue) (s : ClientState) :
    issuesPageLoop true ⟨net, u1⟩ toDate p acc s
      = issuesPageLoop true ⟨net, u2⟩ toDate p acc s ∧
    (issuesPageLoop true ⟨net, u1⟩ toDate p acc s).2.1.calls.filter isUserCall
      = s.calls.filter isUserCall := by
  induction p generalizing acc s with
  | nil => exact ⟨rfl, rfl⟩
  | cons i rest ih =>
    by_cases hc : toDate < i.updated_at
    · constructor <;> simp [issuesPageLoop, hc]
    · have e1 := enrichIssue_exclude ⟨net, u1⟩ i s
      have e2 := enrichIssue_exclude ⟨net, u2⟩ i s
      cases hr : enrichIssuePure net i with
      | error err =>
        constructor
        · simp only [issuesPageLoop]
          rw [if_neg hc, if_neg hc, e1, e2, hr]
        · simp only [issuesPageLoop]
          rw [if_neg hc, e1, hr]
          exact issueEnrichState_filter net i s
      | ok e =>
        have hred1 : issuesPageLoop true ⟨net, u1⟩ toDate (i :: rest) acc s
            = issuesPageLoop true ⟨net, u1⟩ toDate rest (acc ++ [e])
                (issueEnrichState net i s) := by
          simp only [issuesPageLoop]
          rw [if_neg hc, e1, hr]
        have hred2 : issuesPageLoop true ⟨net, u2⟩ toDate (i :: rest) acc s
            = issuesPageLoop true ⟨net, u2⟩ toDate rest (acc ++ [e])
                (issueEnrichState net i s) := by
          simp only [issuesPageLoop]
          rw [if_neg hc, e2, hr]
        rw [hred1, hred2]
        refine ⟨(ih _ _).1, ?_⟩
        rw [(ih _ _).2]
        exact issueEnrichState_filter net i s

theorem issuesLoop_exclude (net : NetOracles) (u1 u2 : UserOracles)
    (toDate : Int) (pages : List (List Issue)) (acc : List EnrichedIssue)
    (s : ClientState) :
    issuesLoop true ⟨net, u1⟩ toDate pages acc s
      = issuesLoop true ⟨net, u2⟩ toDate pages acc s ∧
    (issuesLoop true ⟨net, u1⟩ toDate pages acc s).finalState.calls.filter
        isUserCall
      = s.calls.filter isUserCall := by
  induction pages generalizing acc s with
  | nil => exact ⟨rfl, rfl⟩
  | cons p ps ih =>
    have hpl := issuesPageLoop_exclude net u1 u2 toDate p acc s
    cases hr : issuesPageLoop true ⟨net, u1⟩ toDate p acc s with
    | mk acc2 rest2 =>
      cases rest2 with
      | mk s2 oc =>
        have hr2 : issuesPageLoop true ⟨net, u2⟩ toDate p acc s
            = (acc2, s2, oc) := by rw [← hpl.1, hr]
        have hfil : s2.calls.filter isUserCall = s.calls.filter isUserCall := by
          have := hpl.2
          rw [hr] at this
          exact this
        cases oc with
        | ok =>
          have hred1 : issuesLoop true ⟨net, u1⟩ toDate (p :: ps) acc s
              = issuesLoop true ⟨net, u1⟩ toDate ps acc2 s2 := by
            simp [issuesLoop, hr]
          have hred2 : issuesLoop true ⟨net, u2⟩ toDate (p :: ps) acc s
              = issuesLoop true ⟨net, u2⟩ toDate ps acc2 s2 := by
            simp [issuesLoop, hr2]
          rw [hred1, hred2]
          refine ⟨(ih _ _).1, ?_⟩
          rw [(ih _ _).2]
          exact hfil
        | stop =>
          have hred1 : issuesLoop true ⟨net, u1⟩ toDate (p :: ps) acc s
              = ⟨acc2, none, s2⟩ := by simp [issuesLoop, hr]
          have hred2 : issuesLoop true ⟨net, u2⟩ toDate (p :: ps) acc s
              = ⟨acc2, none, s2⟩ := by simp [issuesLoop, hr2]
          rw [hred1, hred2]
          exact ⟨rfl, hfil⟩
        | err e =>
          have hred1 : issuesLoop true ⟨net, u1⟩ toDate (p :: ps) acc s
              = ⟨acc2, some e, s2⟩ := by simp [issuesLoop, hr]
          have hred2 : issuesLoop true ⟨net, u2⟩ toDate (p :: ps) acc s
              = ⟨acc2, some e, s2⟩ := by simp [issuesLoop, hr2]
          rw [hred1, hred2]
          exact ⟨rfl, hfil⟩

theorem pullUserStep_exclude (os : Oracles) (p : Pull) (s : ClientState) :
    pullUserStep true os p s = (.ok (userDataPure p.user), s) := by
  cases hu : p.user <;>
    simp [pullUserStep, userDataPure, userDataOfOpt, hu, getUser_exclude]

theorem pullUserListStep_exclude (os : Oracles) (logins : List String)
    (prev : Option (List (Option UserRec))) (s : ClientState) :
    pullUserListStep true os logins prev s
      = (.ok (if logins = [] then prev else some (logins.map fun _ => none)), s) := by
  by_cases hl : logins = [] <;> simp [pullUserListStep, hl, getUsers_exclude]

/-- Warnings recorded by the review-comment enrichment of one page
(one warning per comment without a user reference). -/
def reviewWarnings (cs : List Comment) : List String :=
  cs.filterMap fun c =>
    match c.user with
    | none => some ("Missing user info for " ++ c.url)
    | some _ => none

theorem reviewCommentsEnrich_exclude (os : Oracles) (cs : List Comment)
    (acc : List EnrichedComment) (s : ClientState) :
    reviewCommentsEnrich true os cs acc s
      = (.ok (), acc ++ cs.map (fun c => ⟨c, none⟩),
         { s with warnings := s.warnings ++ reviewWarnings cs }) := by
  induction cs generalizing acc s with
  | nil => simp [reviewCommentsEnrich, reviewWarnings]
  | cons c rest ih =>
    cases hu : c.user with
    | none =>
      rw [reviewCommentsEnrich, hu]
      rw [ih]
      unfold logWarning reviewWarnings
      rw [List.filterMap_cons_some (by rw [hu])]
      simp [reviewWarnings, List.append_assoc]
    | some login =>
      rw [reviewCommentsEnrich, hu]
      simp only [getUser_exclude, ih]
      unfold reviewWarnings
      rw [List.filterMap_cons_none (by rw [hu])]
      simp [reviewWarnings, List.append_assoc]

/-- Pure mirror of `reviewPagesLoop` under active filtering: the
result and the warnings the loop records. -/
def reviewPagesPure : List (Except Err (List Comment)) → List EnrichedComment →
    Except Err (List EnrichedComment) × List String
  | [], acc => (.ok acc, [])
  | .error e :: _, acc =>
    (if e = .http 404 then .ok acc else .error e, [])
  | .ok cs :: rest, acc =>
    let r := reviewPagesPure rest (acc ++ cs.map (fun c => ⟨c, none⟩))
    (r.1, reviewWarnings cs ++ r.2)

theorem reviewPagesLoop_exclude (os : Oracles)
    (pages : List (Except Err (List Comment)))
    (acc : List EnrichedComment) (s : ClientState) :
    reviewPagesLoop true os pages acc s
      = ((reviewPagesPure pages acc).1,
         { s with warnings := s.warnings ++ (reviewPagesPure pages acc).2 }) := by
  induction pages generalizing acc s with
  | nil => simp [reviewPagesLoop, reviewPagesPure]
  | cons pg rest ih =>
    cases pg with
    | error e =>
      by_cases he : e = .http 404 <;>
        simp [reviewPagesLoop, reviewPagesPure, he]
    | ok cs =>
      rw [reviewPagesLoop, reviewCommentsEnrich_exclude]
      simp only [ih]
      simp [reviewPagesPure, List.append_assoc]

/-- The state left behind by `__get_pull_review_comments` under
active filtering. -/
def rcState (net : NetOracles) (n : Nat) (s : ClientState) : ClientState :=
  { s with calls := s.calls ++ [.pullReviewCommentsEP n],
           warnings := s.warnings
             ++ (reviewPagesPure (net.reviewCommentPages n) []).2 }

theorem getPullReviewComments_exclude (os : Oracles) (n : Nat) (s : ClientState) :
    getPullReviewComments true os n s
      = ((reviewPagesPure (os.net.reviewCommentPages n) []).1,
         rcState os.net n s) := by
  unfold getPullReviewComments rcState logCall
  rw [reviewPagesLoop_exclude]

theorem rcState_filter (net : NetOracles) (n : Nat) (s : ClientState) :
    (rcState net n s).calls.filter isUserCall = s.calls.filter isUserCall := by
  simp [rcState, List.filter_append, isUserCall]

/-- Pure mirror of the `number` branch of the pull enrichment under
active filtering. -/
def pullNumberPure (net : NetOracles) (n : Nat) :
    Except Err (List EnrichedComment × List String × Option String × UserData) :=
  match (reviewPagesPure (net.reviewCommentPages n) []).1 with
  | .error e => .error e
  | .ok rc =>
    match commitPagesLoop (net.commitPages n) [] with
    | .error e => .error e
    | .ok commits =>
      match mergedByLoop (net.actionLogPages n) none with
      | some login =>
        if login = "" then .ok (rc, commits, some login, .emptyList)
        else .ok (rc, commits, some login, .null)
      | none => .ok (rc, commits, none, .emptyList)

/-- The state left behind by the `number` branch under active
filtering. -/
def pullNumberState (net : NetOracles) (n : Nat) (s : ClientState) : ClientState :=
  match (reviewPagesPure (net.reviewCommentPages n) []).1 with
  | .error _ => rcState net n s
  | .ok _ =>
    match commitPagesLoop (net.commitPages n) [] with
    | .error _ => logCall (rcState net n s) (.pullCommitsEP n)
    | .ok _ =>
      logCall (logCall (rcState net n s) (.pullCommitsEP n)) (.pullActionLogsEP n)

theorem pullNumberStep_exclude (os : Oracles) (n : Nat) (s : ClientState) :
    pullNumberStep true os n s
      = (pullNumberPure os.net n, pullNumberState os.net n s) := by
  unfold pullNumberStep pullNumberPure pullNumberState
  rw [getPullReviewComments_exclude]
  cases hrc : (reviewPagesPure (os.net.reviewCommentPages n) []).1 with
  | error e => simp
  | ok rc =>
    simp only [getPullCommits, getPullMergedBy]
    cases hcm : commitPagesLoop (os.net.commitPages n) [] with
    | error e => simp
    | ok commits =>
      cases hmb : mergedByLoop (os.net.actionLogPages n) none with
      | none => simp
      | some login =>
        by_cases hl : login = ""
        · simp [hl]
        · simp [hl, getUser_exclude, userDataOfOpt]

theorem pullNumberState_filter (net : NetOracles) (n : Nat) (s : ClientState) :
    (pullNumberState net n s).calls.filter isUserCall
      = s.calls.filter isUserCall := by
  unfold pullNumberState
  cases (reviewPagesPure (net.reviewCommentPages n) []).1 with
  | error e => exact rcState_filter net n s
  | ok rc =>
    cases commitPagesLoop (net.commitPages n) [] with
    | error e =>
      simp [logCall, List.filter_append, isUserCall, rcState]
    | ok commits =>
      simp [logCall, List.filter_append, isUserCall, rcState]

/-- Pure mirror of the pull enrichment under active filtering. -/
def pullExtrasPure (net : NetOracles) (p : Pull) : Except Err PullExtras :=
  match (if p.number = 0 then
           .ok (none, [], none, UserData.emptyList, false)
         else
           match pullNumberPure net p.number with
           | .error e => .error e
           | .ok (rc, commits, mb, mbd) => .ok (some rc, commits, mb, mbd, true) :
         Except Err (Option (List EnrichedComment) × List String ×
           Option String × UserData × Bool)) with
  | .error e => .error e
  | .ok (rc, commits, mb, mbd, _) =>
    .ok { user_data := userDataPure p.user,
          assignees_data := if p.assignees = [] then none
                            else some (p.assignees.map fun _ => none),
          testers_data := if p.testers = [] then none
                          else some (p.testers.map fun _ => none),
          review_comments_data := rc, reviews_data := [],
          commits_data := commits, merged_by := mb, merged_by_data := mbd }

/-- The state left behind by the pull enrichment under active
filtering. -/
def pullEnrichState (net : NetOracles) (p : Pull) (s : ClientState) : ClientState :=
  if p.number = 0 then s else pullNumberState net p.number s

theorem pullExtras_exclude (os : Oracles) (p : Pull) (s : ClientState) :
    pullExtras true os p s = (pullExtrasPure os.net p, pullEnrichState os.net p s) := by
  unfold pullExtras pullExtrasPure pullEnrichState
  simp only [pullUserStep_exclude, pullUserListStep_exclude]
  by_cases hn : p.number = 0
  · simp [hn]
  · simp only [hn, if_neg hn, pullNumberStep_exclude]
    cases hr : pullNumberPure os.net p.number with
    | error e => simp
    | ok quad =>
      obtain ⟨rc, commits, mb, mbd⟩ := quad
      simp

theorem enrichPull_exclude (os : Oracles) (p : Pull) (s : ClientState) :
    enrichPull true os p s
      = ((match pullExtrasPure os.net p with
          | .error e => .error e
          | .ok ex => .ok ⟨p, ex⟩),
         pullEnrichState os.net p s) := by
  unfold enrichPull
  rw [pullExtras_exclude]
  cases pullExtrasPure os.net p <;> rfl

theorem pullEnrichState_filter (net : NetOracles) (p : Pull) (s : ClientState) :
    (pullEnrichState net p s).calls.filter isUserCall
      = s.calls.filter isUserCall := by
  unfold pullEnrichState
  by_cases hn : p.number = 0
  · simp [hn]
  · simp [hn, pullNumberState_filter]

/-- Pure mirror of `enrichPull` under active filtering. -/
def enrichPullPure (net : NetOracles) (p : Pull) : Except Err EnrichedPull :=
  match pullExtrasPure net p with
  | .error e => .error e
  | .ok ex => .ok ⟨p, ex⟩

theorem pullsPageLoop_exclude (net : NetOracles) (u1 u2 : UserOracles)
    (fromDate toDate : Int) (p : List Pull) (acc : List EnrichedPull)
    (s : ClientState) :
    pullsPageLoop true ⟨net, u1⟩ fromDate toDate p acc s
      = pullsPageLoop true ⟨net, u2⟩ fromDate toDate p acc s ∧
    (pullsPageLoop true ⟨net, u1⟩ fromDate toDate p acc s).2.1.calls.filter
        isUserCall
      = s.calls.filter isUserCall := by
  induction p generalizing acc s with
  | nil => exact ⟨rfl, rfl⟩
  | cons i rest ih =>
    by_cases hc : i.updated_at < fromDate ∨ toDate < i.updated_at
    · constructor
      · simp only [pullsPageLoop]
        rw [if_pos hc, if_pos hc]
      · simp only [pullsPageLoop]
        rw [if_pos hc]
    · have e1 : enrichPull true ⟨net, u1⟩ i s
          = (enrichPullPure net i, pullEnrichState net i s) :=
        enrichPull_exclude ⟨net, u1⟩ i s
      have e2 : enrichPull true ⟨net, u2⟩ i s
          = (enrichPullPure net i, pullEnrichState net i s) :=
        enrichPull_exclude ⟨net, u2⟩ i s
      cases hr : enrichPullPure net i with
      | error err =>
        constructor
        · simp only [pullsPageLoop]
          rw [if_neg hc, if_neg hc, e1, e2, hr]
        · simp only [pullsPageLoop]
          rw [if_neg hc, e1, hr]
          exact pullEnrichState_filter net i s
      | ok e =>
        have hred1 : pullsPageLoop true ⟨net, u1⟩ fromDate toDate (i :: rest) acc s
            = pullsPageLoop true ⟨net, u1⟩ fromDate toDate rest (acc ++ [e])
                (pullEnrichState net i s) := by
          simp only [pullsPageLoop]
          rw [if_neg hc, e1, hr]
        have hred2 : pullsPageLoop true ⟨net, u2⟩ fromDate toDate (i :: rest) acc s
            = pullsPageLoop true ⟨net, u2⟩ fromDate toDate rest (acc ++ [e])
                (pullEnrichState net i s) := by
          simp only [pullsPageLoop]
          rw [if_neg hc, e2, hr]
        rw [hred1, hred2]
        refine ⟨(ih _ _).1, ?_⟩
        rw [(ih _ _).2]
        exact pullEnrichState_filter net i s

theorem pullsLoop_exclude (net : NetOracles) (u1 u2 : UserOracles)
    (fromDate toDate : Int) (pages : List (List Pull)) (acc : List EnrichedPull)
    (s : ClientState) :
    pullsLoop true ⟨net, u1⟩ fromDate toDate pages acc s
      = pullsLoop true ⟨net, u2⟩ fromDate toDate pages acc s ∧
    (pullsLoop true ⟨net, u1⟩ fromDate toDate pages acc s).finalState.calls.filter
        isUserCall
      = s.calls.filter isUserCall := by
  induction pages generalizing acc s with
  | nil => exact ⟨rfl, rfl⟩
  | cons p ps ih =>
    have hpl := pullsPageLoop_exclude net u1 u2 fromDate toDate p acc s
    cases hr : pullsPageLoop true ⟨net, u1⟩ fromDate toDate p acc s with
    | mk acc2 rest2 =>
      cases rest2 with
      | mk s2 oc =>
        have hr2 : pullsPageLoop true ⟨net, u2⟩ fromDate toDate p acc s
            = (acc2, s2, oc) := by rw [← hpl.1, hr]
        have hfil : s2.calls.filter isUserCall = s.calls.filter isUserCall := by
          have := hpl.2
          rw [hr] at this
          exact this
        cases oc with
        | ok =>
          have hred1 : pullsLoop true ⟨net, u1⟩ fromDate toDate (p :: ps) acc s
              = pullsLoop true ⟨net, u1⟩ fromDate toDate ps acc2 s2 := by
            simp [pullsLoop, hr]
          have hred2 : pullsLoop true ⟨net, u2⟩ fromDate toDate (p :: ps) acc s
              = pullsLoop true ⟨net, u2⟩ fromDate toDate ps acc2 s2 := by
            simp [pullsLoop, hr2]
          rw [hred1, hred2]
          refine ⟨(ih _ _).1, ?_⟩
          rw [(ih _ _).2]
          exact hfil
        | stop =>
          have hred1 : pullsLoop true ⟨net, u1⟩ fromDate toDate (p :: ps) acc s
              = ⟨acc2, none, s2⟩ := by simp [pullsLoop, hr]
          have hred2 : pullsLoop true ⟨net, u2⟩ fromDate toDate (p :: ps) acc s
              = ⟨acc2, none, s2⟩ := by simp [pullsLoop, hr2]
          rw [hred1, hred2]
          exact ⟨rfl, hfil⟩
        | err e =>
          have hred1 : pullsLoop true ⟨net, u1⟩ fromDate toDate (p :: ps) acc s
              = ⟨acc2, some e, s2⟩ := by simp [pullsLoop, hr]
          have hred2 : pullsLoop true ⟨net, u2⟩ fromDate toDate (p :: ps) acc s
              = ⟨acc2, some e, s2⟩ := by simp [pullsLoop, hr2]
          rw [hred1, hred2]
          exact ⟨rfl, hfil⟩

/-- C6: resolving a user returns `None` immediately with no request
when the login is falsy or classification filtering is active; with
filtering active a whole issue or pull-request harvest run issues
zero requests to `users/*` endpoints, and the entire run result —
every emitted item and all its personal-data fields included — is
independent of whatever the user endpoints would have answered. -/
theorem classification_filter_privacy :
    (∀ (exclude : Bool) (os : Oracles) (login : String) (s : ClientState),
       login = "" ∨ exclude = true → getUser exclude os login s = (.ok none, s)) ∧
    (∀ (net : NetOracles) (u : UserOracles) (toDate : Int),
       (runIssues true ⟨net, u⟩ toDate emptyClientState).finalState.calls.filter
         isUserCall = []) ∧
    (∀ (net : NetOracles) (u : UserOracles) (fromDate toDate : Int),
       (runPulls true ⟨net, u⟩ fromDate toDate
          emptyClientState).finalState.calls.filter isUserCall = []) ∧
    (∀ (net : NetOracles) (u1 u2 : UserOracles) (toDate : Int) (s : ClientState),
       runIssues true ⟨net, u1⟩ toDate s = runIssues true ⟨net, u2⟩ toDate s) ∧
    (∀ (net : NetOracles) (u1 u2 : UserOracles) (fromDate toDate : Int)
       (s : ClientState),
       runPulls true ⟨net, u1⟩ fromDate toDate s
         = runPulls true ⟨net, u2⟩ fromDate toDate s) := by
  refine ⟨?_, ?_, ?_, ?_, ?_⟩
  · intro exclude os login s h
    unfold getUser
    rw [if_pos h]
  · intro net u toDate
    unfold runIssues
    rw [(issuesLoop_exclude net u u toDate net.issuePages []
          (logCall emptyClientState .issuesEP)).2]
    simp [logCall, emptyClientState, isUserCall]
  · intro net u fromDate toDate
    unfold runPulls
    rw [(pullsLoop_exclude net u u fromDate toDate net.pullPages []
          (logCall emptyClientState .pullsEP)).2]
    simp [logCall, emptyClientState, isUserCall]
  · intro net u1 u2 toDate s
    unfold runIssues
    exact (issuesLoop_exclude net u1 u2 toDate net.issuePages []
      (logCall s .issuesEP)).1
  · intro net u1 u2 fromDate toDate s
    unfold runPulls
    exact (pullsLoop_exclude net u1 u2 fromDate toDate net.pullPages []
      (logCall s .pullsEP)).1

/-- Closed instance of `classification_filter_privacy`: with
filtering active, a resolution makes no request and returns `None`. -/
theorem classification_filter_privacy_witness :
    getUser true sampleOracles "bob" emptyClientState
      = (.ok none, emptyClientState) :=
  classification_filter_privacy.1 true sampleOracles "bob" emptyClientState
    (Or.inr rfl)
